import Mathlib

/-
Verification development for the status-matching engine of
scripts/add_verification_status.py: the path normalizer, the identity
index builder, and the status resolver, modelled as pure Lean functions
over the same data.
-/

set_option maxHeartbeats 1000000

namespace AVS

/-- Boolean test that the first character list occurs at the start of the
second one. -/
def beginsWith : List Char → List Char → Bool
  | [], _ => true
  | _ :: _, [] => false
  | p :: ps, c :: cs => p = c && beginsWith ps cs

/-- Boolean substring containment, mirroring the Python membership operator
on strings. -/
def containsSub (pat : List Char) : List Char → Bool
  | [] => beginsWith pat []
  | c :: rest => beginsWith pat (c :: rest) || containsSub pat rest

/-- The characters of the scheme literal that normalize_path removes. -/
def fileScheme : List Char := ['f', 'i', 'l', 'e', ':', '/', '/']

/-- The characters of the anchor literal searched with a substring find. -/
def srcAnchor : List Char := ['/', 's', 'r', 'c', '/']

/-- The characters of the anchor segment searched in the split fallback. -/
def srcSeg : List Char := ['s', 'r', 'c']

/-- Fuel-indexed removal of every occurrence of the scheme literal,
scanning left to right; mirrors Python str.replace with an empty
replacement string. The fuel is always at least the length of the
remaining input, so the fuel-exhausted arm is never reached when called
through stripFS. -/
def stripFSAux : Nat → List Char → List Char
  | 0, s => s
  | _ + 1, [] => []
  | n + 1, c :: rest =>
    if beginsWith fileScheme (c :: rest) then stripFSAux n (rest.drop 6)
    else c :: stripFSAux n rest

/-- Removal of every occurrence of the scheme literal from a character
list. -/
def stripFS (s : List Char) : List Char := stripFSAux s.length s

/-- Index of the first occurrence of the anchor literal, mirroring the
Python str.find call in normalize_path. -/
def findSrcIdx : List Char → Option Nat
  | [] => none
  | c :: rest =>
    if beginsWith srcAnchor (c :: rest) then some 0
    else (findSrcIdx rest).map (fun i => i + 1)

/-- Split on the slash character, mirroring Python str.split. -/
def splitSlash : List Char → List (List Char)
  | [] => [[]]
  | c :: rest =>
    if c = '/' then [] :: splitSlash rest
    else
      match splitSlash rest with
      | [] => [[c]]
      | seg :: segs => (c :: seg) :: segs

/-- Join a list of segments with slashes, mirroring the Python join call in
normalize_path. -/
def joinSlash : List (List Char) → List Char
  | [] => []
  | [seg] => seg
  | seg :: segs => seg ++ '/' :: joinSlash segs

/-- Suffix of the segment list starting at the first segment equal to the
anchor segment, mirroring the enumerate loop of normalize_path. -/
def firstSrcFrom : List (List Char) → Option (List (List Char))
  | [] => none
  | seg :: segs => if seg = srcSeg then some (seg :: segs) else firstSrcFrom segs

/-- Character-level body of normalize_path from add_verification_status.py:
strip the scheme literal, cut at the first occurrence of the slash-delimited
anchor, otherwise cut at the first anchor segment of the slash split,
otherwise return the input unchanged. -/
def normChars (path : List Char) : List Char :=
  let p := stripFS path
  match findSrcIdx p with
  | some i => p.drop (i + 1)
  | none =>
    match firstSrcFrom (splitSlash p) with
    | some segs => joinSlash segs
    | none => p

/-- Lean model of normalize_path from add_verification_status.py. -/
def normalize_path (path : String) : String := ⟨normChars path.data⟩

example : normalize_path "proj/proj/src/a/b.rs" = "src/a/b.rs" := by decide
example : normalize_path "no/anchor/here.rs" = "no/anchor/here.rs" := by decide
example : normalize_path "crate/src/lib.rs" = "src/lib.rs" := by decide
example : normalize_path "crate/crate/src/lib.rs" = "src/lib.rs" := by decide
example : normalize_path "a/src/b/src/c" = "src/b/src/c" := by decide
example : normalize_path "src/b/src/c" = "src/c" := by decide
example : normalize_path "" = "" := by decide
example : normalize_path "file://x/src/y" = "src/y" := by decide
example : normalize_path "a/src" = "src" := by decide

/-- A record of the verification report: fields may be absent in the JSON,
which the Python reads with defaulting get calls. -/
structure FuncRecord where
  display_name : Option String
  code_path : Option String
  lines_start : Option Int
  lines_end : Option Int
deriving DecidableEq

/-- The verification report: three arrays of records under fixed category
names; an absent array is read as empty. -/
structure VerificationData where
  verified_functions : List FuncRecord
  failed_functions : List FuncRecord
  unverified_functions : List FuncRecord
deriving DecidableEq

/-- A node of the call graph. The verification_status field models the
optional JSON field of the same name; others models any further fields of
the node object, which the enrichment pass never touches. -/
structure Node where
  id : Option String
  display_name : Option String
  relative_path : Option String
  full_path : Option String
  start_line : Option Int
  verification_status : Option String
  others : List (String × String)
deriving DecidableEq

/-- A key of the mixed lookup dictionary: Python stores three-element and
two-element tuples in the same dict, and tuples of different lengths are
never equal, which the two constructors reflect. -/
inductive LKey where
  | triple (name : String) (path : String) (line : Option Int)
  | pair (name : String) (path : String)
deriving DecidableEq

/-- The primary lookup dictionary, modelled as an insertion-ordered
association list, as Python dicts preserve insertion order. -/
abbrev Lookup := List (LKey × String)

/-- An entry of the by-name secondary index. -/
structure NameEntry where
  path : String
  status : String
  lines_start : Option Int
  lines_end : Option Int
deriving DecidableEq

/-- The by-name secondary index: display name to the ordered list of all
records carrying that name. -/
abbrev ByName := List (String × List NameEntry)

/-- First value stored under a key, mirroring a Python dict read. Insertions
keep keys unique, so the first hit is the only one. -/
def lookupFind (l : Lookup) (k : LKey) : Option String :=
  (l.find? (fun kv => kv.1 = k)).map (fun kv => kv.2)

/-- Dict write for the primary triple key: overwrite the value in place when
the key exists (keeping its original position, as Python dicts do), append
otherwise. -/
def insertTriple (l : Lookup) (k : LKey) (v : String) : Lookup :=
  if l.any (fun kv => kv.1 = k) then
    l.map (fun kv => if kv.1 = k then (kv.1, v) else kv)
  else l ++ [(k, v)]

/-- Guarded dict write for the secondary pair key: inserted only when the
key is not already present. -/
def insertIfAbsent (l : Lookup) (k : LKey) (v : String) : Lookup :=
  if l.any (fun kv => kv.1 = k) then l else l ++ [(k, v)]

/-- Append an entry to the list held under a name in the by-name index,
creating the list when the name is new. -/
def byNameAppend (b : ByName) (name : String) (e : NameEntry) : ByName :=
  if b.any (fun kv => kv.1 = name) then
    b.map (fun kv => if kv.1 = name then (kv.1, kv.2 ++ [e]) else kv)
  else b ++ [(name, [e])]

/-- Read the entry list held under a name in the by-name index. -/
def byNameFind (b : ByName) (name : String) : Option (List NameEntry) :=
  (b.find? (fun kv => kv.1 = name)).map (fun kv => kv.2)

/-- Processing of one record inside build_verification_lookup: read the
fields with their Python defaults, normalize the path, write the triple
key, write the pair key when absent, append to the by-name index. -/
def processFunc (st : Lookup × ByName) (status : String) (func : FuncRecord) :
    Lookup × ByName :=
  let display_name := func.display_name.getD ""
  let code_path := func.code_path.getD ""
  let normalized_path := normalize_path code_path
  let l1 := insertTriple st.1 (LKey.triple display_name normalized_path func.lines_start) status
  let l2 := insertIfAbsent l1 (LKey.pair display_name normalized_path) status
  let b := byNameAppend st.2 display_name
    ⟨normalized_path, status, func.lines_start, func.lines_end⟩
  (l2, b)

/-- Lean model of build_verification_lookup: fold the three record arrays in
the fixed category order verified, failed, unverified. -/
def build_verification_lookup (d : VerificationData) : Lookup × ByName :=
  let st0 : Lookup × ByName := ([], [])
  let st1 := d.verified_functions.foldl (fun st f => processFunc st "verified" f) st0
  let st2 := d.failed_functions.foldl (fun st f => processFunc st "failed" f) st1
  d.unverified_functions.foldl (fun st f => processFunc st "unverified" f) st2

/-- The records of a report flattened in processing order, each paired with
the status string of its category. -/
def recordStream (d : VerificationData) : List (String × FuncRecord) :=
  d.verified_functions.map (fun f => ("verified", f)) ++
  d.failed_functions.map (fun f => ("failed", f)) ++
  d.unverified_functions.map (fun f => ("unverified", f))

/-- The pair key a record produces in the lookup dictionary. -/
def pairKeyOf (f : FuncRecord) : LKey :=
  LKey.pair (f.display_name.getD "") (normalize_path (f.code_path.getD ""))

/-- The triple key a record produces in the lookup dictionary. -/
def tripleKeyOf (f : FuncRecord) : LKey :=
  LKey.triple (f.display_name.getD "") (normalize_path (f.code_path.getD "")) f.lines_start

/-- Substring containment on strings, mirroring the Python membership
operator used by the fuzzy path matching. -/
def strContains (pat s : String) : Bool := containsSub pat.data s.data

/-- Acceptance test of one lookup entry inside the fuzzy scanning loop of
find_verification_status: the starred unpacking gives a one-element rest
for a triple key (even when its stored line is absent) and an empty rest
for a pair key; a triple entry is accepted only on exact line equality with
a present node line, a pair entry is accepted unconditionally. -/
def fuzzyAccept (k : LKey) (display_name normalized_path : String)
    (start_line : Option Int) : Bool :=
  match k with
  | LKey.triple name lpath lstart =>
    name = display_name &&
    (strContains lpath normalized_path || strContains normalized_path lpath) &&
    (match start_line with
     | some sl => lstart = some sl
     | none => false)
  | LKey.pair name lpath =>
    name = display_name &&
    (strContains lpath normalized_path || strContains normalized_path lpath)

/-- The three path-based strategies of find_verification_status for one
candidate path: exact triple key, exact pair key, then the fuzzy scan over
the lookup dictionary in insertion order. -/
def tryPath (lookup : Lookup) (display_name path : String)
    (start_line : Option Int) : Option String :=
  let normalized_path := normalize_path path
  let r1 :=
    match start_line with
    | some sl => lookupFind lookup (LKey.triple display_name normalized_path (some sl))
    | none => none
  match r1 with
  | some s => some s
  | none =>
    match lookupFind lookup (LKey.pair display_name normalized_path) with
    | some s => some s
    | none =>
      (lookup.find? (fun kv => fuzzyAccept kv.1 display_name normalized_path start_line)).map
        (fun kv => kv.2)

/-- The path phase of find_verification_status: the loop over the two
candidate paths, relative first then full, skipping empty ones, running all
three path strategies for one path before moving to the next. -/
def pathPhase (node : Node) (lookup : Lookup) : Option String :=
  let display_name := node.display_name.getD ""
  let relative_path := node.relative_path.getD ""
  let full_path := node.full_path.getD ""
  let r :=
    if relative_path = "" then none
    else tryPath lookup display_name relative_path node.start_line
  match r with
  | some s => some s
  | none =>
    if full_path = "" then none
    else tryPath lookup display_name full_path node.start_line

/-- Number of distinct elements of a list, mirroring the Python set size
taken over the statuses of the by-name matches. -/
def distinctCount : List String → Nat
  | [] => 0
  | s :: rest => (if rest.contains s then 0 else 1) + distinctCount rest

/-- The name-only fallback of find_verification_status: when the name is
indexed, return the first match's status if all matches share one status or
there is a single match, otherwise nothing. -/
def nameFallback (by_name : ByName) (display_name : String) : Option String :=
  match byNameFind by_name display_name with
  | none => none
  | some ms =>
    if distinctCount (ms.map (fun m => m.status)) = 1 then
      ms.head?.map (fun m => m.status)
    else if ms.length = 1 then
      ms.head?.map (fun m => m.status)
    else none

/-- Lean model of find_verification_status: the path phase over both
candidate paths, then the name-only fallback. -/
def find_verification_status (node : Node) (lookup : Lookup) (by_name : ByName) :
    Option String :=
  match pathPhase node lookup with
  | some s => some s
  | none => nameFallback by_name (node.display_name.getD "")

/-- Lean model of the node loop of process_graph: a node gains the resolved
status when one is found and truthy, and is left untouched otherwise. -/
def process_nodes (nodes : List Node) (lookup : Lookup) (by_name : ByName) :
    List Node :=
  nodes.map (fun node =>
    match find_verification_status node lookup by_name with
    | some s => if s = "" then node else { node with verification_status := some s }
    | none => node)

/-- Report of the end-to-end scenario: one verified record for add. -/
def d5 : VerificationData :=
  ⟨[⟨some "add", some "crate/src/lib.rs", some 10, none⟩], [], []⟩

/-- Node of the end-to-end scenario. -/
def node5 : Node :=
  ⟨some "n1", some "add", some "crate/crate/src/lib.rs", none, some 10, none, []⟩

example :
    find_verification_status node5 (build_verification_lookup d5).1
      (build_verification_lookup d5).2 = some "verified" := by decide

/-- Report with one verified and one failed record sharing the name f. -/
def d1 : VerificationData :=
  ⟨[⟨some "f", some "a/x.rs", some 3, none⟩], [⟨some "f", some "b/y.rs", some 5, none⟩], []⟩

/-- Node whose full path carries an exact triple match (failed) while its
relative path only carries a pair match (verified). -/
def node1 : Node :=
  ⟨none, some "f", some "a/x.rs", some "b/y.rs", some 5, none, []⟩

example :
    lookupFind (build_verification_lookup d1).1
      (LKey.triple "f" (normalize_path "b/y.rs") (some 5)) = some "failed" := by decide
example :
    find_verification_status node1 (build_verification_lookup d1).1
      (build_verification_lookup d1).2 = some "verified" := by decide

/-- Report with the same record listed as verified and as unverified. -/
def d10 : VerificationData :=
  ⟨[⟨some "g", some "x.rs", some 1, none⟩], [], [⟨some "g", some "x.rs", some 1, none⟩]⟩

example :
    lookupFind (build_verification_lookup d10).1
      (LKey.triple "g" "x.rs" (some 1)) = some "unverified" := by decide
example :
    lookupFind (build_verification_lookup d10).1 (LKey.pair "g" "x.rs") = some "verified" := by
  decide

/-- Report with one failed record lacking its code path. -/
def d9 : VerificationData := ⟨[], [⟨some "h", none, none, none⟩], []⟩

/-- Node sharing the name h, with an unrelated path and line. -/
def node9 : Node := ⟨none, some "h", some "zzz/qqq.rs", none, some 42, none, []⟩

example :
    find_verification_status node9 (build_verification_lookup d9).1
      (build_verification_lookup d9).2 = some "failed" := by decide

/-- Report with three verified records named foo at unrelated paths. -/
def d3a : VerificationData :=
  ⟨[⟨some "foo", some "p1.rs", none, none⟩, ⟨some "foo", some "p2.rs", none, none⟩,
    ⟨some "foo", some "p3.rs", none, none⟩], [], []⟩

/-- Node named foo whose path matches none of the records. -/
def node3 : Node := ⟨none, some "foo", some "other/thing.rs", none, none, none, []⟩

example :
    find_verification_status node3 (build_verification_lookup d3a).1
      (build_verification_lookup d3a).2 = some "verified" := by decide

/-- Report with two conflicting records named bar at unrelated paths. -/
def d3b : VerificationData :=
  ⟨[⟨some "bar", some "p1.rs", none, none⟩], [⟨some "bar", some "p2.rs", none, none⟩], []⟩

/-- Node named bar whose path matches neither record. -/
def node3b : Node := ⟨none, some "bar", some "other/thing.rs", none, none, none, []⟩

example :
    find_verification_status node3b (build_verification_lookup d3b).1
      (build_verification_lookup d3b).2 = none := by decide

theorem beginsWith_append (p s : List Char) (h : beginsWith p s = true) :
    ∃ t, s = p ++ t := by
  induction p generalizing s with
  | nil => exact ⟨s, rfl⟩
  | cons a ps ih =>
    cases s with
    | nil => simp [beginsWith] at h
    | cons c cs =>
      simp only [beginsWith, Bool.and_eq_true, decide_eq_true_eq] at h
      obtain ⟨t, ht⟩ := ih cs h.2
      exact ⟨t, by simp [h.1, ht]⟩

theorem containsSub_cons_false {pat : List Char} {c : Char} {rest : List Char}
    (h : containsSub pat (c :: rest) = false) :
    beginsWith pat (c :: rest) = false ∧ containsSub pat rest = false := by
  simpa only [containsSub, Bool.or_eq_false_iff] using h

theorem stripFSAux_id (n : Nat) (s : List Char)
    (h : containsSub fileScheme s = false) : stripFSAux n s = s := by
  induction n generalizing s with
  | zero => rfl
  | succ n ih =>
    cases s with
    | nil => rfl
    | cons c rest =>
      obtain ⟨h1, h2⟩ := containsSub_cons_false h
      simp [stripFSAux, h1, ih rest h2]

theorem stripFS_id (s : List Char) (h : containsSub fileScheme s = false) :
    stripFS s = s := stripFSAux_id _ _ h

theorem findSrcIdx_none (s : List Char) (h : containsSub srcAnchor s = false) :
    findSrcIdx s = none := by
  induction s with
  | nil => rfl
  | cons c rest ih =>
    obtain ⟨h1, h2⟩ := containsSub_cons_false h
    simp [findSrcIdx, h1, ih h2]

theorem findSrcIdx_drop (s : List Char) (i : Nat) (h : findSrcIdx s = some i) :
    ∃ t, s.drop i = srcAnchor ++ t := by
  induction s generalizing i with
  | nil => simp [findSrcIdx] at h
  | cons c rest ih =>
    by_cases hb : beginsWith srcAnchor (c :: rest) = true
    · simp only [findSrcIdx, if_pos hb, Option.some.injEq] at h
      subst h
      simpa using beginsWith_append _ _ hb
    · rw [Bool.not_eq_true] at hb
      simp only [findSrcIdx, hb, Bool.false_eq_true, if_false, Option.map_eq_some'] at h
      obtain ⟨j, hj, hij⟩ := h
      obtain ⟨t, ht⟩ := ih j hj
      subst hij
      exact ⟨t, by simpa [List.drop_succ_cons] using ht⟩

theorem splitSlash_ne_nil (s : List Char) : splitSlash s ≠ [] := by
  cases s with
  | nil => simp [splitSlash]
  | cons c rest =>
    simp only [splitSlash]
    split
    · simp
    · split <;> simp

theorem joinSlash_splitSlash (s : List Char) : joinSlash (splitSlash s) = s := by
  induction s with
  | nil => rfl
  | cons c rest ih =>
    by_cases hc : c = '/'
    · subst hc
      rw [show splitSlash ('/' :: rest) = [] :: splitSlash rest by simp [splitSlash]]
      cases hsp : splitSlash rest with
      | nil => exact absurd hsp (splitSlash_ne_nil rest)
      | cons s0 ss =>
        rw [hsp] at ih
        show '/' :: joinSlash (s0 :: ss) = '/' :: rest
        rw [ih]
    · rw [show splitSlash (c :: rest) =
          (match splitSlash rest with
           | [] => [[c]]
           | seg :: segs => (c :: seg) :: segs) by simp [splitSlash, hc]]
      cases hsp : splitSlash rest with
      | nil => exact absurd hsp (splitSlash_ne_nil rest)
      | cons s0 ss =>
        rw [hsp] at ih
        cases ss with
        | nil =>
          show c :: s0 = c :: rest
          rw [show joinSlash [s0] = s0 from rfl] at ih
          rw [ih]
        | cons s1 ss2 =>
          show (c :: s0) ++ '/' :: joinSlash (s1 :: ss2) = c :: rest
          rw [List.cons_append]
          show c :: joinSlash (s0 :: s1 :: ss2) = c :: rest
          rw [ih]

theorem splitSlash_src_cons (t : List Char) :
    splitSlash ('s' :: 'r' :: 'c' :: '/' :: t) = srcSeg :: splitSlash t := rfl

theorem firstSrcFrom_shape (xs ys : List (List Char))
    (h : firstSrcFrom xs = some ys) : ∃ r, ys = srcSeg :: r := by
  induction xs with
  | nil => simp [firstSrcFrom] at h
  | cons seg segs ih =>
    by_cases hs : seg = srcSeg
    · subst hs
      simp only [firstSrcFrom, if_true] at h
      injection h with h
      exact ⟨segs, h.symm⟩
    · simp only [firstSrcFrom, if_neg hs] at h
      exact ih h

theorem normChars_eq_cut (p : List Char) (i : Nat)
    (h : findSrcIdx (stripFS p) = some i) :
    normChars p = (stripFS p).drop (i + 1) := by
  simp only [normChars, h]

theorem normChars_eq_seg (p : List Char) (segs : List (List Char))
    (h1 : findSrcIdx (stripFS p) = none)
    (h2 : firstSrcFrom (splitSlash (stripFS p)) = some segs) :
    normChars p = joinSlash segs := by
  simp only [normChars, h1, h2]

theorem normChars_eq_id (p : List Char)
    (h1 : findSrcIdx (stripFS p) = none)
    (h2 : firstSrcFrom (splitSlash (stripFS p)) = none) :
    normChars p = stripFS p := by
  simp only [normChars, h1, h2]

theorem normChars_head (p : List Char) :
    firstSrcFrom (splitSlash (normChars p)) = none ∨
    ∃ z, splitSlash (normChars p) = srcSeg :: z := by
  cases hf : findSrcIdx (stripFS p) with
  | some i =>
    right
    obtain ⟨t, ht⟩ := findSrcIdx_drop (stripFS p) i hf
    have hdrop : (stripFS p).drop (i + 1) = 's' :: 'r' :: 'c' :: '/' :: t := by
      have : (stripFS p).drop (i + 1) = ((stripFS p).drop i).drop 1 := by
        rw [List.drop_drop]
      rw [this, ht]
      rfl
    rw [normChars_eq_cut p i hf, hdrop, splitSlash_src_cons]
    exact ⟨splitSlash t, rfl⟩
  | none =>
    cases hff : firstSrcFrom (splitSlash (stripFS p)) with
    | some segs =>
      right
      obtain ⟨r, hr⟩ := firstSrcFrom_shape _ _ hff
      subst hr
      rw [normChars_eq_seg p _ hf hff]
      cases r with
      | nil => exact ⟨[], rfl⟩
      | cons r0 rs =>
        refine ⟨splitSlash (joinSlash (r0 :: rs)), ?_⟩
        show splitSlash (srcSeg ++ '/' :: joinSlash (r0 :: rs)) = _
        exact splitSlash_src_cons _
    | none =>
      left
      rw [normChars_eq_id p hf hff]
      exact hff

theorem normChars_idem (p : List Char)
    (hf : containsSub fileScheme (normChars p) = false)
    (hs : containsSub srcAnchor (normChars p) = false) :
    normChars (normChars p) = normChars p := by
  have h1 : stripFS (normChars p) = normChars p := stripFS_id _ hf
  have h2 : findSrcIdx (stripFS (normChars p)) = none := by
    rw [h1]; exact findSrcIdx_none _ hs
  rcases normChars_head p with h3 | ⟨z, h3⟩
  · rw [normChars_eq_id (normChars p) h2 (by rw [h1]; exact h3)]
    exact h1
  · have h4 : firstSrcFrom (splitSlash (stripFS (normChars p))) = some (srcSeg :: z) := by
      rw [h1, h3]
      simp [firstSrcFrom]
    rw [normChars_eq_seg (normChars p) _ h2 h4, ← h3, joinSlash_splitSlash]

/-- C2 counterexample: the path normalizer is not idempotent on every path.
On a path holding two anchor occurrences the first application keeps a
second one, which the second application cuts again. -/
theorem C2_counterexample :
    ¬ normalize_path (normalize_path "a/src/b/src/c") =
        normalize_path "a/src/b/src/c" := by decide

/-- C2 (amended): applying the path normalizer twice gives the same result
as applying it once, for every path whose once-normalized form contains
neither the scheme literal nor the slash-delimited anchor literal as a
substring. -/
theorem C2_normalize_idem (p : String)
    (hf : containsSub fileScheme (normalize_path p).data = false)
    (hs : containsSub srcAnchor (normalize_path p).data = false) :
    normalize_path (normalize_path p) = normalize_path p := by
  show (⟨normChars (normChars p.data)⟩ : String) = ⟨normChars p.data⟩
  rw [normChars_idem p.data hf hs]

/-- Witness for C2_normalize_idem at a concrete path. -/
theorem C2_normalize_idem_witness :
    containsSub fileScheme (normalize_path "a/src/b.rs").data = false ∧
    containsSub srcAnchor (normalize_path "a/src/b.rs").data = false ∧
    normalize_path (normalize_path "a/src/b.rs") = normalize_path "a/src/b.rs" :=
  ⟨by decide, by decide, C2_normalize_idem "a/src/b.rs" (by decide) (by decide)⟩

/-- C7: the normalizer collapses a duplicated project-name prefix to the
src anchor, and returns a path containing no src anchor unchanged. -/
theorem C7_anchor_collapse_and_passthru :
    normalize_path "proj/proj/src/a/b.rs" = "src/a/b.rs" ∧
    normalize_path "no/anchor/here.rs" = "no/anchor/here.rs" := by decide

/-- C5: on the end-to-end scenario, both the record path and the node path
normalize to the same anchored path, the triple key of the exact index
holds verified at that path and line 10, the resolver returns verified for
the node, and the enrichment pass sets exactly that field on the node. -/
theorem C5_end_to_end :
    normalize_path "crate/src/lib.rs" = "src/lib.rs" ∧
    normalize_path "crate/crate/src/lib.rs" = "src/lib.rs" ∧
    lookupFind (build_verification_lookup d5).1
      (LKey.triple "add" "src/lib.rs" (some 10)) = some "verified" ∧
    find_verification_status node5 (build_verification_lookup d5).1
      (build_verification_lookup d5).2 = some "verified" ∧
    process_nodes [node5] (build_verification_lookup d5).1
      (build_verification_lookup d5).2 =
      [{ node5 with verification_status := some "verified" }] := by decide

/-- C1 counterexample: the exact triple key for the node's full path is in
the index with outcome failed, the node's line is set and matches, yet the
resolver returns verified, because the relative path's pair match fires
before any strategy is tried on the full path. -/
theorem C1_counterexample :
    lookupFind (build_verification_lookup d1).1
      (LKey.triple (node1.display_name.getD "")
        (normalize_path (node1.full_path.getD "")) (some 5)) = some "failed" ∧
    node1.start_line = some 5 ∧
    find_verification_status node1 (build_verification_lookup d1).1
      (build_verification_lookup d1).2 = some "verified" := by decide

/-- C1 (amended): the strategies run per candidate path, all three tiers
for the relative path before any tier of the full path; consequently when
the node's relative path is non-empty and the triple (name, normalized
relative path, start line) is a key of the exact index, the resolver
returns that triple's stored outcome, regardless of any other record. -/
theorem C1_first_path_triple (lookup : Lookup) (by_name : ByName) (node : Node)
    (sl : Int) (st : String)
    (hrel : node.relative_path.getD "" ≠ "")
    (hline : node.start_line = some sl)
    (hhit : lookupFind lookup
      (LKey.triple (node.display_name.getD "")
        (normalize_path (node.relative_path.getD "")) (some sl)) = some st) :
    find_verification_status node lookup by_name = some st := by
  simp [find_verification_status, pathPhase, tryPath, hline, hrel, hhit]

/-- Witness for C1_first_path_triple at a concrete index and node. -/
theorem C1_first_path_triple_witness :
    node5.relative_path.getD "" ≠ "" ∧
    node5.start_line = some 10 ∧
    lookupFind (build_verification_lookup d5).1
      (LKey.triple (node5.display_name.getD "")
        (normalize_path (node5.relative_path.getD "")) (some 10)) = some "verified" ∧
    find_verification_status node5 (build_verification_lookup d5).1
      (build_verification_lookup d5).2 = some "verified" :=
  ⟨by decide, by decide, by decide,
    C1_first_path_triple (build_verification_lookup d5).1
      (build_verification_lookup d5).2 node5 10 "verified"
      (by decide) (by decide) (by decide)⟩

theorem ite_true_zero : (if true = true then (0 : Nat) else 1) = 0 := rfl

theorem ite_false_one : (if false = true then (0 : Nat) else 1) = 1 := rfl

theorem distinctCount_cons (c : String) (rest : List String) :
    distinctCount (c :: rest) =
      (if rest.contains c then 0 else 1) + distinctCount rest := rfl

theorem distinctCount_pos (l : List String) (a : String) (ha : a ∈ l) :
    1 ≤ distinctCount l := by
  induction l with
  | nil => simp at ha
  | cons c rest ih =>
    rw [distinctCount_cons]
    rcases List.mem_cons.mp ha with h | h
    · cases hc : rest.contains c with
      | true =>
        have hm : c ∈ rest := List.mem_of_elem_eq_true hc
        have := ih (h ▸ hm)
        rw [ite_true_zero]
        omega
      | false =>
        rw [ite_false_one]
        omega
    · have := ih h
      omega

theorem distinctCount_eq_one_of_all_eq (l : List String) (hne : l ≠ [])
    (hall : ∀ a ∈ l, ∀ b ∈ l, a = b) : distinctCount l = 1 := by
  induction l with
  | nil => exact absurd rfl hne
  | cons c rest ih =>
    cases rest with
    | nil => rfl
    | cons r rs =>
      have hcr : r = c := hall r (by simp) c (by simp)
      have hc : (r :: rs).contains c = true :=
        List.elem_eq_true_of_mem (by simp [← hcr])
      have hrec : distinctCount (r :: rs) = 1 := by
        refine ih (by simp) ?_
        intro a ha b hb
        exact hall a (List.mem_cons_of_mem _ ha) b (List.mem_cons_of_mem _ hb)
      rw [distinctCount_cons, hc, hrec, ite_true_zero]

theorem distinctCount_ge_two (l : List String) (a b : String)
    (ha : a ∈ l) (hb : b ∈ l) (hab : a ≠ b) : 2 ≤ distinctCount l := by
  induction l with
  | nil => simp at ha
  | cons c rest ih =>
    have hmono : distinctCount rest ≤ distinctCount (c :: rest) := by
      rw [distinctCount_cons]
      omega
    rcases List.mem_cons.mp ha with ha1 | ha1 <;>
      rcases List.mem_cons.mp hb with hb1 | hb1
    · exact absurd (ha1.trans hb1.symm) hab
    · subst ha1
      cases hc : rest.contains a with
      | true =>
        exact le_trans (ih (List.mem_of_elem_eq_true hc) hb1) hmono
      | false =>
        have h1 : 1 ≤ distinctCount rest := distinctCount_pos rest b hb1
        rw [distinctCount_cons, hc, ite_false_one]
        omega
    · subst hb1
      cases hc : rest.contains b with
      | true =>
        exact le_trans (ih ha1 (List.mem_of_elem_eq_true hc)) hmono
      | false =>
        have h1 : 1 ≤ distinctCount rest := distinctCount_pos rest a ha1
        rw [distinctCount_cons, hc, ite_false_one]
        omega
    · exact le_trans (ih ha1 hb1) hmono

/-- C3: when no path-based strategy succeeds, resolution is the name-only
fallback: nothing when the name is not indexed; the shared outcome when all
records under the name agree; the single record's outcome when there is
exactly one; nothing when several records conflict. -/
theorem C3_name_fallback (node : Node) (lookup : Lookup) (by_name : ByName)
    (h : pathPhase node lookup = none) :
    (byNameFind by_name (node.display_name.getD "") = none →
      find_verification_status node lookup by_name = none) ∧
    (∀ ms, byNameFind by_name (node.display_name.getD "") = some ms →
      ((ms ≠ [] ∧ ∀ e ∈ ms, ∀ f ∈ ms, e.status = f.status) →
        find_verification_status node lookup by_name =
          ms.head?.map (fun m => m.status)) ∧
      (ms.length = 1 →
        find_verification_status node lookup by_name =
          ms.head?.map (fun m => m.status)) ∧
      ((∃ e ∈ ms, ∃ f ∈ ms, e.status ≠ f.status) →
        find_verification_status node lookup by_name = none)) := by
  have hfind : find_verification_status node lookup by_name =
      nameFallback by_name (node.display_name.getD "") := by
    simp [find_verification_status, h]
  constructor
  · intro hnone
    rw [hfind]
    simp [nameFallback, hnone]
  · intro ms hms
    refine ⟨?_, ?_, ?_⟩
    · rintro ⟨hne, hall⟩
      have hone : distinctCount (ms.map (fun m => m.status)) = 1 := by
        refine distinctCount_eq_one_of_all_eq _ (by simpa using hne) ?_
        intro a ha b hb
        obtain ⟨ea, hea, haeq⟩ := List.mem_map.mp ha
        obtain ⟨eb, heb, hbeq⟩ := List.mem_map.mp hb
        rw [← haeq, ← hbeq]
        exact hall ea hea eb heb
      rw [hfind]
      simp [nameFallback, hms, hone]
    · intro hlen
      obtain ⟨m, hm⟩ := List.length_eq_one.mp hlen
      subst hm
      rw [hfind]
      simp [nameFallback, hms, distinctCount]
    · rintro ⟨e, he, f, hf, hef⟩
      have htwo : 2 ≤ distinctCount (ms.map (fun m => m.status)) :=
        distinctCount_ge_two _ e.status f.status
          (List.mem_map.mpr ⟨e, he, rfl⟩) (List.mem_map.mpr ⟨f, hf, rfl⟩) hef
      have hlen : ms.length ≠ 1 := by
        intro hlen
        obtain ⟨m, hm⟩ := List.length_eq_one.mp hlen
        subst hm
        simp only [List.mem_singleton] at he hf
        exact hef (he ▸ hf ▸ rfl)
      rw [hfind]
      simp only [nameFallback, hms]
      rw [if_neg (by omega), if_neg hlen]

/-- Witness for C3_name_fallback on the unanimity scenario. -/
theorem C3_name_fallback_witness :
    pathPhase node3 (build_verification_lookup d3a).1 = none ∧
    find_verification_status node3 (build_verification_lookup d3a).1
      (build_verification_lookup d3a).2 = some "verified" := by
  refine ⟨by decide, ?_⟩
  have h := ((C3_name_fallback node3 (build_verification_lookup d3a).1
      (build_verification_lookup d3a).2 (by decide)).2
      [⟨"p1.rs", "verified", none, none⟩, ⟨"p2.rs", "verified", none, none⟩,
       ⟨"p3.rs", "verified", none, none⟩] (by decide)).1 ⟨by decide, by decide⟩
  simpa using h

theorem find?_append_match {α : Type} (l1 l2 : List α) (p : α → Bool) :
    (l1 ++ l2).find? p =
      match l1.find? p with
      | some x => some x
      | none => l2.find? p := by
  induction l1 with
  | nil => rfl
  | cons a l ih =>
    cases hp : p a with
    | true => simp [List.find?, hp]
    | false => simp [List.find?, hp, ih]

theorem lookupFind_cons (kv : LKey × String) (l : Lookup) (k : LKey) :
    lookupFind (kv :: l) k =
      if kv.1 = k then some kv.2 else lookupFind l k := by
  by_cases h : kv.1 = k
  · simp [lookupFind, List.find?, h]
  · simp [lookupFind, List.find?, h]

theorem lookupFind_append_single (l : Lookup) (k k0 : LKey) (v : String) :
    lookupFind (l ++ [(k0, v)]) k =
      match lookupFind l k with
      | some s => some s
      | none => if k0 = k then some v else none := by
  induction l with
  | nil =>
    rw [List.nil_append]
    show lookupFind [(k0, v)] k = _
    rw [show lookupFind ([] : Lookup) k = none from rfl]
    rw [lookupFind_cons]
    rfl
  | cons kv rest ih =>
    rw [List.cons_append, lookupFind_cons, lookupFind_cons]
    by_cases h : kv.1 = k
    · rw [if_pos h, if_pos h]
    · rw [if_neg h, if_neg h, ih]

theorem lookupFind_map_update (l : Lookup) (k0 k : LKey) (v : String)
    (h : k ≠ k0) :
    lookupFind (l.map (fun kv => if kv.1 = k0 then (kv.1, v) else kv)) k =
      lookupFind l k := by
  induction l with
  | nil => rfl
  | cons kv rest ih =>
    rw [List.map_cons, lookupFind_cons, lookupFind_cons]
    by_cases hk : kv.1 = k0
    · rw [if_pos hk]
      have hne : kv.1 ≠ k := fun hkk => h (hkk ▸ hk)
      show (if kv.1 = k then some v else _) = _
      rw [if_neg hne, if_neg hne, ih]
    · rw [if_neg hk]
      by_cases hk2 : kv.1 = k
      · rw [if_pos hk2, if_pos hk2]
      · rw [if_neg hk2, if_neg hk2, ih]

theorem lookupFind_eq_none_iff (l : Lookup) (k : LKey) :
    lookupFind l k = none ↔ ∀ kv ∈ l, kv.1 ≠ k := by
  simp [lookupFind, List.find?_eq_none]

theorem any_key_iff (l : Lookup) (k : LKey) :
    l.any (fun kv => kv.1 = k) = true ↔ ∃ kv ∈ l, kv.1 = k := by
  simp [List.any_eq_true]

theorem lookupFind_insertTriple_same (l : Lookup) (k : LKey) (v : String) :
    lookupFind (insertTriple l k v) k = some v := by
  unfold insertTriple
  by_cases ha : l.any (fun kv => kv.1 = k) = true
  · rw [if_pos ha]
    obtain ⟨kv0, hkv0, hk0⟩ := (any_key_iff l k).mp ha
    clear ha
    induction l with
    | nil => simp at hkv0
    | cons kv rest ih =>
      rw [List.map_cons]
      by_cases hk : kv.1 = k
      · rw [if_pos hk, lookupFind_cons,
          if_pos (show ((kv.1, v) : LKey × String).1 = k from hk)]
      · rw [if_neg hk, lookupFind_cons, if_neg hk]
        rcases List.mem_cons.mp hkv0 with h | h
        · exact absurd (h ▸ hk0) hk
        · exact ih h
  · rw [if_neg ha]
    rw [lookupFind_append_single]
    have hnone : lookupFind l k = none := by
      rw [lookupFind_eq_none_iff]
      intro kv hkv hk
      exact ha ((any_key_iff l k).mpr ⟨kv, hkv, hk⟩)
    rw [hnone, if_pos rfl]

theorem lookupFind_insertTriple_other (l : Lookup) (k0 k : LKey) (v : String)
    (h : k ≠ k0) :
    lookupFind (insertTriple l k0 v) k = lookupFind l k := by
  unfold insertTriple
  by_cases ha : l.any (fun kv => kv.1 = k0) = true
  · rw [if_pos ha, lookupFind_map_update l k0 k v h]
  · rw [if_neg ha, lookupFind_append_single]
    have : k0 ≠ k := fun hk => h hk.symm
    rw [if_neg this]
    cases lookupFind l k <;> rfl

theorem lookupFind_insertIfAbsent_same (l : Lookup) (k : LKey) (v : String) :
    lookupFind (insertIfAbsent l k v) k =
      match lookupFind l k with
      | some s => some s
      | none => some v := by
  unfold insertIfAbsent
  by_cases ha : l.any (fun kv => kv.1 = k) = true
  · rw [if_pos ha]
    obtain ⟨kv0, hkv0, hk0⟩ := (any_key_iff l k).mp ha
    have : lookupFind l k ≠ none := by
      intro hn
      exact (lookupFind_eq_none_iff l k).mp hn kv0 hkv0 hk0
    cases hlf : lookupFind l k with
    | some s => rfl
    | none => exact absurd hlf this
  · rw [if_neg ha, lookupFind_append_single]
    have hnone : lookupFind l k = none := by
      rw [lookupFind_eq_none_iff]
      intro kv hkv hk
      exact ha ((any_key_iff l k).mpr ⟨kv, hkv, hk⟩)
    rw [hnone, if_pos rfl]

theorem lookupFind_insertIfAbsent_other (l : Lookup) (k0 k : LKey) (v : String)
    (h : k ≠ k0) :
    lookupFind (insertIfAbsent l k0 v) k = lookupFind l k := by
  unfold insertIfAbsent
  by_cases ha : l.any (fun kv => kv.1 = k0) = true
  · rw [if_pos ha]
  · rw [if_neg ha, lookupFind_append_single]
    have : k0 ≠ k := fun hk => h hk.symm
    rw [if_neg this]
    cases lookupFind l k <;> rfl

theorem processFunc_fst (st : Lookup × ByName) (s : String) (f : FuncRecord) :
    (processFunc st s f).1 =
      insertIfAbsent
        (insertTriple st.1 (tripleKeyOf f) s)
        (LKey.pair (f.display_name.getD "") (normalize_path (f.code_path.getD ""))) s := rfl

theorem pair_ne_triple (n p a b : String) (c : Option Int) :
    LKey.pair n p ≠ LKey.triple a b c := by
  intro h
  cases h

theorem processFunc_pair (st : Lookup × ByName) (s : String) (f : FuncRecord)
    (n p : String) :
    lookupFind (processFunc st s f).1 (LKey.pair n p) =
      match lookupFind st.1 (LKey.pair n p) with
      | some v => some v
      | none => if pairKeyOf f = LKey.pair n p then some s else none := by
  rw [processFunc_fst]
  have h1 : lookupFind (insertTriple st.1 (tripleKeyOf f) s) (LKey.pair n p) =
      lookupFind st.1 (LKey.pair n p) :=
    lookupFind_insertTriple_other _ _ _ _ (by unfold tripleKeyOf; apply pair_ne_triple)
  by_cases hk : pairKeyOf f = LKey.pair n p
  · rw [show (LKey.pair (f.display_name.getD "") (normalize_path (f.code_path.getD "")))
        = LKey.pair n p from hk]
    rw [lookupFind_insertIfAbsent_same, h1]
    rw [if_pos hk]
  · have hk2 : ¬ LKey.pair (f.display_name.getD "")
        (normalize_path (f.code_path.getD "")) = LKey.pair n p := hk
    rw [lookupFind_insertIfAbsent_other _ _ _ _ (fun h => hk2 h.symm), h1]
    rw [if_neg hk]
    cases lookupFind st.1 (LKey.pair n p) <;> rfl

theorem processFunc_triple (st : Lookup × ByName) (s : String) (f : FuncRecord)
    (k : LKey) (n p : String) (ls : Option Int) (hk : k = LKey.triple n p ls) :
    lookupFind (processFunc st s f).1 k =
      if tripleKeyOf f = k then some s else lookupFind st.1 k := by
  rw [processFunc_fst]
  have h2 : lookupFind (insertIfAbsent
      (insertTriple st.1 (tripleKeyOf f) s)
      (LKey.pair (f.display_name.getD "") (normalize_path (f.code_path.getD ""))) s) k =
      lookupFind (insertTriple st.1 (tripleKeyOf f) s) k := by
    apply lookupFind_insertIfAbsent_other
    rw [hk]
    intro h
    exact pair_ne_triple _ _ _ _ _ h.symm
  rw [h2]
  by_cases he : tripleKeyOf f = k
  · rw [if_pos he, ← he, lookupFind_insertTriple_same]
  · rw [if_neg he, lookupFind_insertTriple_other _ _ _ _ (fun h => he h.symm)]

/-- One step of the record fold, as used by build_verification_lookup. -/
def buildStep (st : Lookup × ByName) (sf : String × FuncRecord) : Lookup × ByName :=
  processFunc st sf.1 sf.2

theorem buildStep_eq (st : Lookup × ByName) (sf : String × FuncRecord) :
    buildStep st sf = processFunc st sf.1 sf.2 := rfl

theorem build_eq_foldl (d : VerificationData) :
    build_verification_lookup d = (recordStream d).foldl buildStep ([], []) := by
  simp [build_verification_lookup, recordStream, buildStep,
    List.foldl_append, List.foldl_map]

theorem foldl_pair (stream : List (String × FuncRecord)) (st : Lookup × ByName)
    (n p : String) :
    lookupFind (stream.foldl buildStep st).1 (LKey.pair n p) =
      match lookupFind st.1 (LKey.pair n p) with
      | some v => some v
      | none =>
        (stream.find? (fun sf => pairKeyOf sf.2 = LKey.pair n p)).map (fun sf => sf.1) := by
  induction stream generalizing st with
  | nil =>
    show lookupFind st.1 (LKey.pair n p) = _
    cases lookupFind st.1 (LKey.pair n p) <;> rfl
  | cons sf rest ih =>
    rw [List.foldl_cons, ih, buildStep_eq, processFunc_pair]
    cases hst : lookupFind st.1 (LKey.pair n p) with
    | some v => rfl
    | none =>
      by_cases hk : pairKeyOf sf.2 = LKey.pair n p
      · rw [if_pos hk,
          show (sf :: rest).find? (fun sf => pairKeyOf sf.2 = LKey.pair n p)
            = some sf by simp [List.find?, hk]]
        rfl
      · rw [if_neg hk,
          show (sf :: rest).find? (fun sf => pairKeyOf sf.2 = LKey.pair n p)
            = rest.find? (fun sf => pairKeyOf sf.2 = LKey.pair n p) by
          simp [List.find?, hk]]

theorem foldl_triple (stream : List (String × FuncRecord)) (st : Lookup × ByName)
    (n p : String) (ls : Option Int) :
    lookupFind (stream.foldl buildStep st).1 (LKey.triple n p ls) =
      match (stream.reverse.find?
          (fun sf => tripleKeyOf sf.2 = LKey.triple n p ls)).map (fun sf => sf.1) with
      | some v => some v
      | none => lookupFind st.1 (LKey.triple n p ls) := by
  induction stream generalizing st with
  | nil => rfl
  | cons sf rest ih =>
    rw [List.foldl_cons, ih, List.reverse_cons, find?_append_match]
    cases hr : rest.reverse.find? (fun sf => tripleKeyOf sf.2 = LKey.triple n p ls) with
    | some x => rfl
    | none =>
      rw [buildStep_eq, processFunc_triple st sf.1 sf.2 _ n p ls rfl]
      by_cases hk : tripleKeyOf sf.2 = LKey.triple n p ls
      · rw [if_pos hk,
          show List.find? (fun sf => tripleKeyOf sf.2 = LKey.triple n p ls) [sf]
            = some sf by simp [List.find?, hk]]
        rfl
      · rw [if_neg hk,
          show List.find? (fun sf => tripleKeyOf sf.2 = LKey.triple n p ls) [sf]
            = none by simp [List.find?, hk]]

/-- C4: the pair key of the exact index is first-writer-wins over the
record stream taken in the fixed category order verified, failed,
unverified: the stored outcome under any pair key is the outcome of the
first record of the stream producing that key. In particular, for the
report listing the same function as verified and as unverified, the pair
key stores verified. -/
theorem C4_pair_first_writer :
    (∀ (d : VerificationData) (n p : String),
      lookupFind (build_verification_lookup d).1 (LKey.pair n p) =
        ((recordStream d).find?
          (fun sf => pairKeyOf sf.2 = LKey.pair n p)).map (fun sf => sf.1)) ∧
    lookupFind (build_verification_lookup d10).1 (LKey.pair "g" "x.rs") =
      some "verified" := by
  constructor
  · intro d n p
    rw [build_eq_foldl, foldl_pair]
    rfl
  · decide

/-- C10: the triple key of the exact index is last-writer-wins over the
record stream: the stored outcome under any triple key is the outcome of
the last record of the stream producing that key — the opposite precedence
of the pair key. In particular, for the report listing the same function
(same name, path and start line) as verified and as unverified, the triple
key stores unverified while the pair key stores verified. -/
theorem C10_triple_last_writer :
    (∀ (d : VerificationData) (n p : String) (ls : Option Int),
      lookupFind (build_verification_lookup d).1 (LKey.triple n p ls) =
        ((recordStream d).reverse.find?
          (fun sf => tripleKeyOf sf.2 = LKey.triple n p ls)).map (fun sf => sf.1)) ∧
    lookupFind (build_verification_lookup d10).1 (LKey.triple "g" "x.rs" (some 1)) =
      some "unverified" ∧
    lookupFind (build_verification_lookup d10).1 (LKey.pair "g" "x.rs") =
      some "verified" := by
  refine ⟨?_, by decide, by decide⟩
  intro d n p ls
  rw [build_eq_foldl, foldl_triple]
  cases hr : ((recordStream d).reverse.find?
      (fun sf => tripleKeyOf sf.2 = LKey.triple n p ls)).map (fun sf => sf.1) <;> rfl

/-- The three status strings the builder can store. -/
def isStd (s : String) : Prop :=
  s = "verified" ∨ s = "failed" ∨ s = "unverified"

/-- Every value of the lookup dictionary is a status string. -/
def LookupStd (l : Lookup) : Prop := ∀ kv ∈ l, isStd kv.2

/-- Every entry status of the by-name index is a status string. -/
def ByNameStd (b : ByName) : Prop := ∀ nm ∈ b, ∀ e ∈ nm.2, isStd e.status

theorem insertTriple_std (l : Lookup) (k : LKey) (v : String)
    (hl : LookupStd l) (hv : isStd v) : LookupStd (insertTriple l k v) := by
  unfold insertTriple
  split
  · intro kv hkv
    obtain ⟨kv0, hkv0, heq⟩ := List.mem_map.mp hkv
    by_cases hk : kv0.1 = k
    · rw [if_pos hk] at heq
      rw [← heq]
      exact hv
    · rw [if_neg hk] at heq
      rw [← heq]
      exact hl kv0 hkv0
  · intro kv hkv
    rcases List.mem_append.mp hkv with h | h
    · exact hl kv h
    · rw [List.mem_singleton] at h
      rw [h]
      exact hv

theorem insertIfAbsent_std (l : Lookup) (k : LKey) (v : String)
    (hl : LookupStd l) (hv : isStd v) : LookupStd (insertIfAbsent l k v) := by
  unfold insertIfAbsent
  split
  · exact hl
  · intro kv hkv
    rcases List.mem_append.mp hkv with h | h
    · exact hl kv h
    · rw [List.mem_singleton] at h
      rw [h]
      exact hv

theorem byNameAppend_std (b : ByName) (name : String) (e : NameEntry)
    (hb : ByNameStd b) (hv : isStd e.status) : ByNameStd (byNameAppend b name e) := by
  unfold byNameAppend
  split
  · intro nm hnm
    obtain ⟨nm0, hnm0, heq⟩ := List.mem_map.mp hnm
    by_cases hk : nm0.1 = name
    · rw [if_pos hk] at heq
      rw [← heq]
      intro x hx
      rcases List.mem_append.mp hx with h | h
      · exact hb nm0 hnm0 x h
      · rw [List.mem_singleton] at h
        rw [h]
        exact hv
    · rw [if_neg hk] at heq
      rw [← heq]
      exact hb nm0 hnm0
  · intro nm hnm
    rcases List.mem_append.mp hnm with h | h
    · exact hb nm h
    · rw [List.mem_singleton] at h
      rw [h]
      intro x hx
      rw [List.mem_singleton] at hx
      rw [hx]
      exact hv

theorem buildStep_std (st : Lookup × ByName) (sf : String × FuncRecord)
    (hs : isStd sf.1) (h1 : LookupStd st.1) (h2 : ByNameStd st.2) :
    LookupStd (buildStep st sf).1 ∧ ByNameStd (buildStep st sf).2 := by
  refine ⟨?_, ?_⟩
  · exact insertIfAbsent_std _ _ _ (insertTriple_std _ _ _ h1 hs) hs
  · exact byNameAppend_std _ _ _ h2 hs

theorem foldl_std (stream : List (String × FuncRecord)) (st : Lookup × ByName)
    (hstream : ∀ sf ∈ stream, isStd sf.1)
    (h1 : LookupStd st.1) (h2 : ByNameStd st.2) :
    LookupStd (stream.foldl buildStep st).1 ∧
    ByNameStd (stream.foldl buildStep st).2 := by
  induction stream generalizing st with
  | nil => exact ⟨h1, h2⟩
  | cons sf rest ih =>
    have hstep := buildStep_std st sf (hstream sf (by simp)) h1 h2
    exact ih (buildStep st sf) (fun x hx => hstream x (List.mem_cons_of_mem _ hx))
      hstep.1 hstep.2

theorem recordStream_std (d : VerificationData) :
    ∀ sf ∈ recordStream d, isStd sf.1 := by
  intro sf hsf
  unfold recordStream at hsf
  rcases List.mem_append.mp hsf with h | h
  · rcases List.mem_append.mp h with h2 | h2
    · obtain ⟨f, _, heq⟩ := List.mem_map.mp h2
      rw [← heq]
      exact Or.inl rfl
    · obtain ⟨f, _, heq⟩ := List.mem_map.mp h2
      rw [← heq]
      exact Or.inr (Or.inl rfl)
  · obtain ⟨f, _, heq⟩ := List.mem_map.mp h
    rw [← heq]
    exact Or.inr (Or.inr rfl)

theorem build_std (d : VerificationData) :
    LookupStd (build_verification_lookup d).1 ∧
    ByNameStd (build_verification_lookup d).2 := by
  rw [build_eq_foldl]
  refine foldl_std _ _ (recordStream_std d) ?_ ?_
  · intro kv h
    cases h
  · intro nm h
    cases h

theorem find?_map_snd_isStd (l : Lookup) (p : LKey × String → Bool) (s : String)
    (hl : LookupStd l) (h : (l.find? p).map (fun kv => kv.2) = some s) : isStd s := by
  cases hf : l.find? p with
  | none => rw [hf] at h; cases h
  | some kv =>
    rw [hf] at h
    injection h with h
    rw [← h]
    exact hl kv (List.mem_of_find?_eq_some hf)

theorem lookupFind_isStd (l : Lookup) (k : LKey) (s : String)
    (hl : LookupStd l) (h : lookupFind l k = some s) : isStd s :=
  find?_map_snd_isStd l _ s hl h

theorem tryPath_isStd (lookup : Lookup) (dn path : String) (sl : Option Int)
    (s : String) (hl : LookupStd lookup)
    (h : tryPath lookup dn path sl = some s) : isStd s := by
  cases sl with
  | none =>
    simp only [tryPath] at h
    split at h
    next s2 heq2 =>
      injection h with h
      rw [← h]
      exact lookupFind_isStd _ _ _ hl heq2
    next heq2 =>
      exact find?_map_snd_isStd _ _ _ hl h
  | some sl2 =>
    simp only [tryPath] at h
    split at h
    next s1 heq =>
      injection h with h
      rw [← h]
      exact lookupFind_isStd _ _ _ hl heq
    next heq =>
      split at h
      next s2 heq2 =>
        injection h with h
        rw [← h]
        exact lookupFind_isStd _ _ _ hl heq2
      next heq2 =>
        exact find?_map_snd_isStd _ _ _ hl h

theorem pathPhase_isStd (node : Node) (lookup : Lookup) (s : String)
    (hl : LookupStd lookup) (h : pathPhase node lookup = some s) : isStd s := by
  by_cases hrel : node.relative_path.getD "" = ""
  · simp only [pathPhase, hrel, if_true] at h
    by_cases hfull : node.full_path.getD "" = ""
    · simp [hfull] at h
    · simp only [hfull, if_false] at h
      exact tryPath_isStd _ _ _ _ _ hl h
  · simp only [pathPhase, hrel, if_false] at h
    split at h
    next s1 heq =>
      injection h with h
      rw [← h]
      exact tryPath_isStd _ _ _ _ _ hl heq
    next heq =>
      by_cases hfull : node.full_path.getD "" = ""
      · simp [hfull] at h
      · rw [if_neg hfull] at h
        exact tryPath_isStd _ _ _ _ _ hl h

theorem nameFallback_isStd (b : ByName) (dn : String) (s : String)
    (hb : ByNameStd b) (h : nameFallback b dn = some s) : isStd s := by
  unfold nameFallback at h
  split at h
  next => cases h
  next ms heq =>
    have hms : ∀ e ∈ ms, isStd e.status := by
      cases hf : b.find? (fun kv => kv.1 = dn) with
      | none => rw [byNameFind, hf] at heq; cases heq
      | some kv =>
        rw [byNameFind, hf] at heq
        injection heq with heq
        rw [← heq]
        exact hb kv (List.mem_of_find?_eq_some hf)
    have hhead : ms.head?.map (fun m => m.status) = some s → isStd s := by
      intro hh
      cases hhd : ms.head? with
      | none => rw [hhd] at hh; cases hh
      | some m =>
        rw [hhd] at hh
        injection hh with hh
        rw [← hh]
        exact hms m (List.mem_of_mem_head? hhd)
    split at h
    · exact hhead h
    · split at h
      · exact hhead h
      · cases h

theorem find_verification_status_isStd (node : Node) (d : VerificationData)
    (s : String)
    (h : find_verification_status node (build_verification_lookup d).1
      (build_verification_lookup d).2 = some s) : isStd s := by
  unfold find_verification_status at h
  split at h
  next s1 heq =>
    injection h with h
    rw [← h]
    exact pathPhase_isStd _ _ _ (build_std d).1 heq
  next heq =>
    exact nameFallback_isStd _ _ _ (build_std d).2 h

/-- C8: the index builder and resolver are total functions of their inputs,
including records and nodes with every optional field absent (missing
fields default to the empty string or stay absent), and resolution always
lands in the four-valued range nothing, verified, failed, unverified. The
conjunct evaluates them on a report whose only record has no fields at all
and a node with no fields at all, which still resolves (to the record's
category) rather than failing. -/
theorem C8_total_range :
    (∀ (d : VerificationData) (node : Node),
      find_verification_status node (build_verification_lookup d).1
          (build_verification_lookup d).2 = none ∨
      find_verification_status node (build_verification_lookup d).1
          (build_verification_lookup d).2 = some "verified" ∨
      find_verification_status node (build_verification_lookup d).1
          (build_verification_lookup d).2 = some "failed" ∨
      find_verification_status node (build_verification_lookup d).1
          (build_verification_lookup d).2 = some "unverified") ∧
    find_verification_status ⟨none, none, none, none, none, none, []⟩
        (build_verification_lookup ⟨[⟨none, none, none, none⟩], [], []⟩).1
        (build_verification_lookup ⟨[⟨none, none, none, none⟩], [], []⟩).2 =
      some "verified" := by
  constructor
  · intro d node
    cases hf : find_verification_status node (build_verification_lookup d).1
        (build_verification_lookup d).2 with
    | none => exact Or.inl rfl
    | some s =>
      rcases find_verification_status_isStd node d s hf with h | h | h
      · exact Or.inr (Or.inl (by rw [h]))
      · exact Or.inr (Or.inr (Or.inl (by rw [h])))
      · exact Or.inr (Or.inr (Or.inr (by rw [h])))
  · decide

/-- Field-level frame condition between an input node and its enriched
output: every field other than verification_status is preserved; a node
whose resolution yields a status ends with exactly that status written (a
status string), and a node whose resolution yields nothing is returned
unchanged. -/
def frameOk (lookup : Lookup) (by_name : ByName) (n n2 : Node) : Prop :=
  n2.id = n.id ∧ n2.display_name = n.display_name ∧
  n2.relative_path = n.relative_path ∧ n2.full_path = n.full_path ∧
  n2.start_line = n.start_line ∧ n2.others = n.others ∧
  (∀ s, find_verification_status n lookup by_name = some s →
    n2.verification_status = some s ∧ isStd s) ∧
  (find_verification_status n lookup by_name = none → n2 = n)

theorem isStd_ne_empty (s : String) (h : isStd s) : ¬ s = "" := by
  rcases h with h | h | h <;> rw [h] <;> decide

/-- C6: the enrichment pass maps the node list one to one; each output node
agrees with its input node on every field except verification_status,
which is set to the resolved status (one of the three status strings) when
resolution succeeds, while an unresolved node is returned entirely
unchanged. -/
theorem C6_frame (d : VerificationData) (nodes : List Node) :
    (process_nodes nodes (build_verification_lookup d).1
        (build_verification_lookup d).2).length = nodes.length ∧
    ∀ (i : Nat) (hi : i < nodes.length)
      (hi2 : i < (process_nodes nodes (build_verification_lookup d).1
        (build_verification_lookup d).2).length),
      frameOk (build_verification_lookup d).1 (build_verification_lookup d).2
        (nodes.get ⟨i, hi⟩)
        ((process_nodes nodes (build_verification_lookup d).1
          (build_verification_lookup d).2).get ⟨i, hi2⟩) := by
  constructor
  · exact List.length_map _ _
  · intro i hi hi2
    have hg : ((process_nodes nodes (build_verification_lookup d).1
        (build_verification_lookup d).2).get ⟨i, hi2⟩) =
        (fun node =>
          match find_verification_status node (build_verification_lookup d).1
              (build_verification_lookup d).2 with
          | some s => if s = "" then node
              else { node with verification_status := some s }
          | none => node) (nodes.get ⟨i, hi⟩) :=
      List.get_map _
    rw [hg]
    cases hf : find_verification_status (nodes.get ⟨i, hi⟩)
        (build_verification_lookup d).1 (build_verification_lookup d).2 with
    | none =>
      simp only [hf]
      refine ⟨rfl, rfl, rfl, rfl, rfl, rfl, ?_, ?_⟩
      · intro s hs
        rw [hf] at hs
        cases hs
      · intro _
        rfl
    | some s =>
      have hstd : isStd s := find_verification_status_isStd _ d s hf
      have hne := isStd_ne_empty s hstd
      simp only [hf, if_neg hne]
      refine ⟨rfl, rfl, rfl, rfl, rfl, rfl, ?_, ?_⟩
      · intro s2 hs2
        rw [hf] at hs2
        injection hs2 with hs2
        rw [← hs2]
        exact ⟨rfl, hstd⟩
      · intro hnone
        rw [hf] at hnone
        cases hnone

/-- Witness for C6_frame on the end-to-end scenario node. -/
theorem C6_frame_witness :
    ((process_nodes [node5] (build_verification_lookup d5).1
        (build_verification_lookup d5).2).get
      ⟨0, by decide⟩).verification_status = some "verified" := by
  have h := ((C6_frame d5 [node5]).2 0 (by decide) (by decide)).2.2.2.2.2.2.1
    "verified" (by decide)
  exact h.1

theorem containsSub_nil (s : List Char) : containsSub [] s = true := by
  cases s <;> rfl

theorem foldl_pair_present (stream : List (String × FuncRecord))
    (st : Lookup × ByName) (s : String) (f : FuncRecord)
    (hmem : (s, f) ∈ stream) (n p : String) (hk : pairKeyOf f = LKey.pair n p) :
    (lookupFind (stream.foldl buildStep st).1 (LKey.pair n p)).isSome = true := by
  rw [foldl_pair]
  cases hst : lookupFind st.1 (LKey.pair n p) with
  | some v => rfl
  | none =>
    have hex : (stream.find? (fun sf => pairKeyOf sf.2 = LKey.pair n p)).isSome := by
      rw [List.find?_isSome]
      exact ⟨(s, f), hmem, by simp [hk]⟩
    cases hfd : stream.find? (fun sf => pairKeyOf sf.2 = LKey.pair n p) with
    | none => rw [hfd] at hex; cases hex
    | some x => rfl

theorem lookupFind_isSome_mem (l : Lookup) (k : LKey)
    (h : (lookupFind l k).isSome = true) : ∃ kv ∈ l, kv.1 = k := by
  unfold lookupFind at h
  rw [Option.isSome_map'] at h
  obtain ⟨kv, hkv, hp⟩ := List.find?_isSome.mp h
  exact ⟨kv, hkv, by simpa using hp⟩

theorem tryPath_isSome_of_empty_pair (lookup : Lookup) (dn path : String)
    (sl : Option Int)
    (hpair : ∃ kv ∈ lookup, kv.1 = LKey.pair dn "") :
    (tryPath lookup dn path sl).isSome = true := by
  have hfuzzy : (lookup.find? (fun kv =>
      fuzzyAccept kv.1 dn (normalize_path path) sl)).isSome = true := by
    rw [List.find?_isSome]
    obtain ⟨kv, hkv, hk1⟩ := hpair
    refine ⟨kv, hkv, ?_⟩
    rw [hk1]
    simp [fuzzyAccept, strContains, containsSub_nil]
  cases sl with
  | none =>
    simp only [tryPath]
    split
    · rfl
    · rw [Option.isSome_map']
      exact hfuzzy
  | some sl2 =>
    simp only [tryPath]
    split
    · rfl
    · split
      · rfl
      · rw [Option.isSome_map']
        exact hfuzzy

/-- C9: a record with a missing or empty code path indexes a line-free pair
entry under the empty normalized path, which the fuzzy substring strategy
accepts against any path; hence every node sharing that record's display
name and holding at least one non-empty candidate path is always resolved
to some outcome, never to nothing, whatever the line numbers involved. -/
theorem C9_empty_path_always_matches (d : VerificationData) (node : Node)
    (s : String) (f : FuncRecord)
    (hmem : (s, f) ∈ recordStream d)
    (hpath : f.code_path.getD "" = "")
    (hname : node.display_name.getD "" = f.display_name.getD "")
    (hnon : ¬ (node.relative_path.getD "" = "" ∧ node.full_path.getD "" = "")) :
    (find_verification_status node (build_verification_lookup d).1
      (build_verification_lookup d).2).isSome = true := by
  have hk : pairKeyOf f = LKey.pair (node.display_name.getD "") "" := by
    unfold pairKeyOf
    rw [hname, hpath, show normalize_path "" = "" from by decide]
  have hpres : (lookupFind (build_verification_lookup d).1
      (LKey.pair (node.display_name.getD "") "")).isSome = true := by
    rw [build_eq_foldl]
    exact foldl_pair_present _ _ s f hmem _ _ hk
  have hex := lookupFind_isSome_mem _ _ hpres
  by_cases hrel : node.relative_path.getD "" = ""
  · have hfull : ¬ node.full_path.getD "" = "" := fun hf => hnon ⟨hrel, hf⟩
    have ht := tryPath_isSome_of_empty_pair (build_verification_lookup d).1
      (node.display_name.getD "") (node.full_path.getD "") node.start_line hex
    obtain ⟨v, hv⟩ := Option.isSome_iff_exists.mp ht
    have : find_verification_status node (build_verification_lookup d).1
        (build_verification_lookup d).2 = some v := by
      simp [find_verification_status, pathPhase, hrel, hfull, hv]
    rw [this]
    rfl
  · have ht := tryPath_isSome_of_empty_pair (build_verification_lookup d).1
      (node.display_name.getD "") (node.relative_path.getD "") node.start_line hex
    obtain ⟨v, hv⟩ := Option.isSome_iff_exists.mp ht
    have : find_verification_status node (build_verification_lookup d).1
        (build_verification_lookup d).2 = some v := by
      simp [find_verification_status, pathPhase, hrel, hv]
    rw [this]
    rfl

/-- Witness for C9_empty_path_always_matches on the report with a failed
record lacking its code path. -/
theorem C9_empty_path_witness :
    ("failed", (⟨some "h", none, none, none⟩ : FuncRecord)) ∈ recordStream d9 ∧
    (find_verification_status node9 (build_verification_lookup d9).1
      (build_verification_lookup d9).2).isSome = true :=
  ⟨by decide,
    C9_empty_path_always_matches d9 node9 "failed" ⟨some "h", none, none, none⟩
      (by decide) (by decide) (by decide) (by decide)⟩

end AVS
